import Mathlib

/-!
Verification of the search agents in src/src/agents.py (classes RandomAgent,
MinimaxAgent, AlphaBetaAgent, ExpectimaxAgent and the function
evaluate_board_state).  The chess rules engine (the python-chess library) and
the utiles evaluation helpers are external collaborators; they are modelled by
an abstract Engine structure.  Python float values that can be the literals
float("-inf") / float("inf") are modelled by the type Val below; all heuristic
evaluations are rational numbers.
-/

/-- Values flowing through the searches: a rational number, or one of the two
infinite sentinels float("-inf") and float("inf") used as initial best values. -/
inductive Val where
  | ninf : Val
  | num : ℚ → Val
  | pinf : Val
deriving DecidableEq, Repr

/-- Boolean comparison defining the usual order on Val, with ninf as bottom and
pinf as top. -/
def Val.ble : Val → Val → Bool
  | .ninf, _ => true
  | _, .pinf => true
  | .num a, .num b => decide (a ≤ b)
  | .num _, .ninf => false
  | .pinf, .ninf => false
  | .pinf, .num _ => false

instance : LinearOrder Val where
  le a b := Val.ble a b = true
  le_refl a := by cases a <;> simp [Val.ble]
  le_trans a b c hab hbc := by
    cases a <;> cases b <;> cases c <;> simp_all [Val.ble]
    exact le_trans hab hbc
  le_antisymm a b hab hba := by
    cases a <;> cases b <;> simp_all [Val.ble]
    exact le_antisymm hab hba
  le_total a b := by
    cases a <;> cases b <;> simp [Val.ble]
    exact le_total _ _
  decidableLE a b := inferInstanceAs (Decidable (Val.ble a b = true))

instance (a b : Val) : Decidable (a ≤ b) :=
  inferInstanceAs (Decidable (Val.ble a b = true))

instance (a b : Val) : Decidable (a < b) :=
  inferInstanceAs (Decidable (Val.ble a b = true ∧ ¬ Val.ble b a = true))

theorem Val.ninf_le (a : Val) : Val.ninf ≤ a := by cases a <;> simp [LE.le, Val.ble]

theorem Val.le_pinf (a : Val) : a ≤ Val.pinf := by cases a <;> simp [LE.le, Val.ble]

theorem Val.le_ninf_iff {a : Val} : a ≤ Val.ninf ↔ a = Val.ninf := by
  cases a <;> simp [LE.le, Val.ble]

theorem Val.pinf_le_iff {a : Val} : Val.pinf ≤ a ↔ a = Val.pinf := by
  cases a <;> simp [LE.le, Val.ble]

theorem Val.num_le_num {a b : ℚ} : Val.num a ≤ Val.num b ↔ a ≤ b := by
  simp [LE.le, Val.ble]

theorem Val.ninf_lt_num (q : ℚ) : Val.ninf < Val.num q := by
  refine lt_of_le_of_ne (Val.ninf_le _) ?_
  intro h; exact Val.noConfusion h

theorem Val.num_lt_pinf (q : ℚ) : Val.num q < Val.pinf := by
  refine lt_of_le_of_ne (Val.le_pinf _) ?_
  intro h; exact Val.noConfusion h

theorem Val.max_ninf (a : Val) : max a Val.ninf = a := max_eq_left (Val.ninf_le a)

theorem Val.min_pinf (a : Val) : min a Val.pinf = a := min_eq_left (Val.le_pinf a)

/-- Addition of search values, used only by the expectimax chance-node sum.
In Python the sum of float("-inf") and float("inf") is NaN; that combination is
unreachable under the engine contract (a non-terminal node has legal moves, so
no child value is infinite) and is mapped to an arbitrary junk value here. -/
def Val.add : Val → Val → Val
  | .num a, .num b => .num (a + b)
  | .ninf, .pinf => .num 0
  | .pinf, .ninf => .num 0
  | .pinf, _ => .pinf
  | _, .pinf => .pinf
  | .ninf, _ => .ninf
  | _, .ninf => .ninf

/-- Division of a search value by the number of moves, used by the expectimax
chance-node average (value_sum / len(possible_moves_list)). -/
def Val.div : Val → Nat → Val
  | .num q, n => .num (q / n)
  | .ninf, _ => .ninf
  | .pinf, _ => .pinf

/-- The color strings passed around as the turn argument of the searches. -/
inductive Turn where
  | white : Turn
  | black : Turn
deriving DecidableEq, Repr

/-- The expression computing next_turn in every search loop:
next_turn = white if turn == black else black. -/
def Turn.next : Turn → Turn
  | .black => .white
  | .white => .black

/-- The single Python error kind the agents can actually raise: the IndexError
raised by random.choice on an empty sequence and by possible_moves_list[0] on
an empty list. -/
inductive PyErr where
  | indexError : PyErr
deriving DecidableEq, Repr

/-- The external collaborator surface used by agents.py: the chess.Board query
and mutation operations, the chess.Move.from_uci(str(m)) round trip, and the
four utiles evaluation signals.

Modelled from the spec: the functions utiles.check_status, utiles.evaluationBoard,
utiles.checkmate_status and utiles.good_square_moves are code of this repository
that is not under src/.  Per spec section 4.1 each of the four additive signals
is expressed from the white-reference convention before the final sign
adjustment, so they are modelled as functions of the board alone. -/
structure Engine (B M : Type) where
  turn : B → Bool
  is_game_over : B → Bool
  legal_moves : B → List M
  push : B → M → B
  pop : B → B
  from_uci : M → M
  check_status : B → ℚ
  evaluationBoard : B → ℚ
  checkmate_status : B → ℚ
  good_square_moves : B → ℚ

variable {B M : Type}

/-- Translation of evaluate_board_state (agents.py lines 180-188): the sum of
the four utiles signals, negated unless turn is white. -/
def evaluate_board_state (e : Engine B M) (board : B) (turn : Turn) : ℚ :=
  let node_evaluation : ℚ :=
    0 + e.check_status board + e.evaluationBoard board
      + e.checkmate_status board + e.good_square_moves board
  if turn = Turn.white then node_evaluation else -node_evaluation

/-- The depth-0 / game-over return value shared by MinimaxAgent.minimax
(lines 63-65) and AlphaBetaAgent.alpha_beta (lines 104-106):
evaluation if turn == white else -evaluation. -/
def leafColor (e : Engine B M) (b : B) (turn : Turn) : Val :=
  let evaluation := evaluate_board_state e b turn
  Val.num (if turn = Turn.white then evaluation else -evaluation)

/-- The depth-0 / game-over return value of ExpectimaxAgent.expectimax
(lines 151-153): evaluation if is_maximizing else -evaluation.  Note the sign
is keyed off the maximizing flag, unlike leafColor. -/
def leafMax (e : Engine B M) (b : B) (turn : Turn) (is_maximizing : Bool) : Val :=
  let evaluation := evaluate_board_state e b turn
  Val.num (if is_maximizing then evaluation else -evaluation)

/-- The maximizing loop of MinimaxAgent.minimax (lines 68-78): push, recurse,
pop, replace the running best on a strictly greater value.  The recursive call
at depth - 1 is abstracted as child, which returns the value half of the search
result together with the board state after the call. -/
def maxLoop (e : Engine B M) (child : B → Val × B) :
    List M → B → Val → Option M → (Val × Option M) × B
  | [], b, best_value, best_move => ((best_value, best_move), b)
  | m :: ms, b, best_value, best_move =>
    let mv := e.from_uci m
    let s := child (e.push b mv)
    let b2 := e.pop s.2
    if s.1 > best_value then maxLoop e child ms b2 s.1 (some mv)
    else maxLoop e child ms b2 best_value best_move

/-- The minimizing loop of MinimaxAgent.minimax (lines 79-89): replace the
running best on a strictly smaller value. -/
def minLoop (e : Engine B M) (child : B → Val × B) :
    List M → B → Val → Option M → (Val × Option M) × B
  | [], b, best_value, best_move => ((best_value, best_move), b)
  | m :: ms, b, best_value, best_move =>
    let mv := e.from_uci m
    let s := child (e.push b mv)
    let b2 := e.pop s.2
    if s.1 < best_value then minLoop e child ms b2 s.1 (some mv)
    else minLoop e child ms b2 best_value best_move

/-- Translation of MinimaxAgent.minimax (lines 62-90).  The mutable shared
board self.board is threaded explicitly: the function returns the pair
(best_value, best_move) together with the board state when the call returns. -/
def minimax (e : Engine B M) : Nat → Turn → Bool → B → (Val × Option M) × B
  | 0, turn, _, b => ((leafColor e b turn, none), b)
  | d + 1, turn, is_maximizing, b =>
    if e.is_game_over b then ((leafColor e b turn, none), b)
    else
      let possible_moves_list := e.legal_moves b
      if is_maximizing then
        maxLoop e
          (fun b' =>
            let r := minimax e d turn.next false b'
            (r.1.1, r.2))
          possible_moves_list b Val.ninf none
      else
        minLoop e
          (fun b' =>
            let r := minimax e d turn.next true b'
            (r.1.1, r.2))
          possible_moves_list b Val.pinf none

/-- Translation of MinimaxAgent.get_action (lines 58-60). -/
def MinimaxAgent.get_action (e : Engine B M) (depth : Nat) (b : B) : Option M × B :=
  let r := minimax e depth (if e.turn b then Turn.white else Turn.black) (e.turn b) b
  (r.1.2, r.2)

/-- The maximizing loop of AlphaBetaAgent.alpha_beta (lines 109-122): push,
recurse with the current window, pop, replace best on strictly greater value,
break when beta <= best_value, otherwise alpha = max(alpha, best_value). -/
def abMaxLoop (e : Engine B M) (child : Val → Val → B → Val × B) :
    List M → B → Val → Option M → Val → Val → (Val × Option M) × B
  | [], b, best_value, best_move, _, _ => ((best_value, best_move), b)
  | m :: ms, b, best_value, best_move, alpha, beta =>
    let mv := e.from_uci m
    let s := child alpha beta (e.push b mv)
    let b2 := e.pop s.2
    let bb : Val × Option M :=
      if s.1 > best_value then (s.1, some mv) else (best_value, best_move)
    if beta ≤ bb.1 then (bb, b2)
    else abMaxLoop e child ms b2 bb.1 bb.2 (max alpha bb.1) beta

/-- The minimizing loop of AlphaBetaAgent.alpha_beta (lines 123-136): replace
best on strictly smaller value, break when alpha >= best_value, otherwise
beta = min(beta, best_value). -/
def abMinLoop (e : Engine B M) (child : Val → Val → B → Val × B) :
    List M → B → Val → Option M → Val → Val → (Val × Option M) × B
  | [], b, best_value, best_move, _, _ => ((best_value, best_move), b)
  | m :: ms, b, best_value, best_move, alpha, beta =>
    let mv := e.from_uci m
    let s := child alpha beta (e.push b mv)
    let b2 := e.pop s.2
    let bb : Val × Option M :=
      if s.1 < best_value then (s.1, some mv) else (best_value, best_move)
    if bb.1 ≤ alpha then (bb, b2)
    else abMinLoop e child ms b2 bb.1 bb.2 alpha (min beta bb.1)

/-- Translation of AlphaBetaAgent.alpha_beta (lines 103-138), with the shared
board threaded explicitly as in minimax. -/
def alpha_beta (e : Engine B M) : Nat → Turn → Bool → Val → Val → B → (Val × Option M) × B
  | 0, turn, _, _, _, b => ((leafColor e b turn, none), b)
  | d + 1, turn, is_maximizing, alpha, beta, b =>
    if e.is_game_over b then ((leafColor e b turn, none), b)
    else
      let possible_moves_list := e.legal_moves b
      if is_maximizing then
        abMaxLoop e
          (fun al be b' =>
            let r := alpha_beta e d turn.next false al be b'
            (r.1.1, r.2))
          possible_moves_list b Val.ninf none alpha beta
      else
        abMinLoop e
          (fun al be b' =>
            let r := alpha_beta e d turn.next true al be b'
            (r.1.1, r.2))
          possible_moves_list b Val.pinf none alpha beta

/-- Translation of AlphaBetaAgent.get_action (lines 98-101). -/
def AlphaBetaAgent.get_action (e : Engine B M) (depth : Nat) (b : B) : Option M × B :=
  let r := alpha_beta e depth (if e.turn b then Turn.white else Turn.black) (e.turn b)
    Val.ninf Val.pinf b
  (r.1.2, r.2)

/-- The maximizing loop of ExpectimaxAgent.expectimax (lines 156-166).  A child
call can raise (the Python IndexError propagates), in which case the loop
aborts without restoring the board, exactly as an uncaught exception would. -/
def expMaxLoop (e : Engine B M) (child : B → Except PyErr (Val × B)) :
    List M → B → Val → M → Except PyErr ((Val × M) × B)
  | [], b, best_value, best_move => .ok ((best_value, best_move), b)
  | m :: ms, b, best_value, best_move =>
    let mv := e.from_uci m
    match child (e.push b mv) with
    | .error er => .error er
    | .ok s =>
      let b2 := e.pop s.2
      if s.1 > best_value then expMaxLoop e child ms b2 s.1 mv
      else expMaxLoop e child ms b2 best_value best_move

/-- The chance-node loop of ExpectimaxAgent.expectimax (lines 167-175):
accumulate value_sum over all children. -/
def expSumLoop (e : Engine B M) (child : B → Except PyErr (Val × B)) :
    List M → B → Val → Except PyErr (Val × B)
  | [], b, value_sum => .ok (value_sum, b)
  | m :: ms, b, value_sum =>
    let mv := e.from_uci m
    match child (e.push b mv) with
    | .error er => .error er
    | .ok s => expSumLoop e child ms (e.pop s.2) (value_sum.add s.1)

/-- Translation of ExpectimaxAgent.expectimax (lines 150-177).  The statement
best_move = possible_moves_list[0] on line 155 raises IndexError when the legal
move list is empty, before either branch runs; this is the .error case of the
match on the move list.  At a non-base node best_move is always a move (the
initial list head, possibly replaced in the maximizing branch), so the move
half of the result is some there and none only at a base node. -/
def expectimax (e : Engine B M) : Nat → Turn → Bool → B → Except PyErr ((Val × Option M) × B)
  | 0, turn, is_maximizing, b => .ok ((leafMax e b turn is_maximizing, none), b)
  | d + 1, turn, is_maximizing, b =>
    if e.is_game_over b then .ok ((leafMax e b turn is_maximizing, none), b)
    else
      match e.legal_moves b with
      | [] => .error .indexError
      | m0 :: ms =>
        if is_maximizing then
          match expMaxLoop e
              (fun b' =>
                match expectimax e d turn.next false b' with
                | .error er => .error er
                | .ok r => .ok (r.1.1, r.2))
              (m0 :: ms) b Val.ninf m0 with
          | .error er => .error er
          | .ok r => .ok ((r.1.1, some r.1.2), r.2)
        else
          match expSumLoop e
              (fun b' =>
                match expectimax e d turn.next true b' with
                | .error er => .error er
                | .ok r => .ok (r.1.1, r.2))
              (m0 :: ms) b (Val.num 0) with
          | .error er => .error er
          | .ok s => .ok ((s.1.div (m0 :: ms).length, some m0), s.2)

/-- Translation of ExpectimaxAgent.get_action (lines 146-148). -/
def ExpectimaxAgent.get_action (e : Engine B M) (depth : Nat) (b : B) :
    Except PyErr (Option M × B) :=
  match expectimax e depth (if e.turn b then Turn.white else Turn.black) true b with
  | .error er => .error er
  | .ok r => .ok (r.1.2, r.2)

/-- Translation of RandomAgent.random (lines 46-50).  The process-wide
randomness of random.choice is injected as the index pick; random.choice on an
empty sequence raises IndexError.  The board is returned unchanged alongside
the result: the method performs no push or pop. -/
def RandomAgent.random (e : Engine B M) (b : B) (pick : Nat) : Except PyErr M × B :=
  let possible_moves_list := e.legal_moves b
  match possible_moves_list with
  | [] => (.error .indexError, b)
  | m :: ms =>
    let random_move := (m :: ms).get ⟨pick % (m :: ms).length, Nat.mod_lt _ (Nat.succ_pos _)⟩
    (.ok (e.from_uci random_move), b)

/-- Translation of RandomAgent.get_action (lines 43-44). -/
def RandomAgent.get_action (e : Engine B M) (b : B) (pick : Nat) : Except PyErr M × B :=
  RandomAgent.random e b pick

/-- A leaf lemma: the depth-0 value of minimax and alpha_beta is the raw
white-reference four-term sum for both colors, because evaluate_board_state
negates for black and the base case negates again. -/
theorem leafColor_eq_white_sum (e : Engine B M) (b : B) (t : Turn) :
    leafColor e b t =
      Val.num (0 + e.check_status b + e.evaluationBoard b
        + e.checkmate_status b + e.good_square_moves b) := by
  cases t <;> simp [leafColor, evaluate_board_state]

/-- Demo engine with no legal moves and a nonzero static evaluation, used as a
concrete input for counterexamples. -/
def emptyE : Engine Unit Unit where
  turn := fun _ => true
  is_game_over := fun _ => false
  legal_moves := fun _ => []
  push := fun b _ => b
  pop := fun b => b
  from_uci := fun m => m
  check_status := fun _ => 0
  evaluationBoard := fun _ => 1
  checkmate_status := fun _ => 0
  good_square_moves := fun _ => 0

/-- Demo engine whose root is a three-move chance node with child evaluations
2, 4 and 6: boards are digit stacks, pushing appends the move digit. -/
def chanceE : Engine Nat Nat where
  turn := fun _ => true
  is_game_over := fun _ => false
  legal_moves := fun _ => [2, 4, 6]
  push := fun b m => b * 10 + m % 10
  pop := fun b => b / 10
  from_uci := fun m => m
  check_status := fun _ => 0
  evaluationBoard := fun b => (b : ℚ)
  checkmate_status := fun _ => 0
  good_square_moves := fun _ => 0

/-- C3, counterexample: at depth 0 with turn black on a board whose four-term
sum is 1, the search value is num 1 while evaluate_board_state gives -1, so
search(position, 0, color, anything).value == evaluate(position, color) fails
for the black color. -/
theorem depth_zero_black_value_ne_evaluate :
    (minimax emptyE 0 Turn.black true ()).1.1 ≠
      Val.num (evaluate_board_state emptyE () Turn.black) := by
  simp only [minimax, leafColor, evaluate_board_state, emptyE, ne_eq, Val.num.injEq,
    if_neg (by decide : ¬Turn.black = Turn.white)]
  norm_num

/-- C3, amended: for every position, every color and every maximizing flag the
depth-0 value of minimax and of alpha_beta equals evaluate_board_state of the
position for the white reference color (hence it agrees with
evaluate(position, color) exactly when color is white). -/
theorem depth_zero_value_eq_white_evaluate (e : Engine B M) (b : B) (t : Turn)
    (mx : Bool) (alpha beta : Val) :
    (minimax e 0 t mx b).1.1 = Val.num (evaluate_board_state e b Turn.white) ∧
    (alpha_beta e 0 t mx alpha beta b).1.1 =
      Val.num (evaluate_board_state e b Turn.white) := by
  constructor <;>
    simp [minimax, alpha_beta, leafColor_eq_white_sum, evaluate_board_state]

/-- C9: the base-case value of minimax and alpha_beta does not depend on the
turn argument (nor on the maximizing flag or the window), and equals the raw
white-reference four-term sum, because evaluate_board_state already negates
for black and the base case negates again. -/
theorem base_value_turn_independent (e : Engine B M) (b : B) (t t2 : Turn)
    (mx mx2 : Bool) (alpha beta : Val) :
    (minimax e 0 t mx b).1.1 = (minimax e 0 t2 mx2 b).1.1 ∧
    (alpha_beta e 0 t mx alpha beta b).1.1 = (minimax e 0 t mx b).1.1 ∧
    (minimax e 0 t mx b).1.1 =
      Val.num (0 + e.check_status b + e.evaluationBoard b
        + e.checkmate_status b + e.good_square_moves b) := by
  refine ⟨?_, ?_, ?_⟩ <;> simp [minimax, alpha_beta, leafColor_eq_white_sum]

/-- C8: evaluate_board_state is the sum of exactly the four utiles terms in
the white-reference convention, negated exactly when the turn is black; as a
consequence the black evaluation is the exact negation of the white one on
every board. -/
theorem evaluate_board_state_four_terms (e : Engine B M) (b : B) (t : Turn) :
    evaluate_board_state e b t =
      (if t = Turn.white then
        0 + e.check_status b + e.evaluationBoard b
          + e.checkmate_status b + e.good_square_moves b
      else
        -(0 + e.check_status b + e.evaluationBoard b
          + e.checkmate_status b + e.good_square_moves b)) ∧
    evaluate_board_state e b Turn.black = -(evaluate_board_state e b Turn.white) := by
  constructor
  · rfl
  · simp [evaluate_board_state]

/-- C7, counterexample: invoked at a chance node (depth 1, not game over,
maximizing flag false) with an empty legal-move list, expectimax fails with
the generic IndexError raised by possible_moves_list[0], not with a defined
DegenerateChanceNode error (no such error exists in the code). -/
theorem expectimax_empty_chance_node_index_error :
    expectimax emptyE 1 Turn.white false () = Except.error PyErr.indexError := rfl

/-- C7, amended: whenever expectimax reaches a node with positive depth that is
not game over and whose legal-move list is empty — in particular a chance
node — it fails with the IndexError raised by evaluating
possible_moves_list[0] on line 155, before the chance-node average is ever
formed, so no division by zero occurs; there is no DegenerateChanceNode error
and no explicit guard on the average. -/
theorem expectimax_empty_moves_index_error (e : Engine B M) (d : Nat) (t : Turn)
    (mx : Bool) (b : B) (hover : e.is_game_over b = false)
    (hmoves : e.legal_moves b = []) :
    expectimax e (d + 1) t mx b = Except.error PyErr.indexError := by
  simp [expectimax, hover, hmoves]

/-- C7, witness for the amended theorem at the concrete empty engine. -/
theorem expectimax_empty_moves_index_error_witness :
    expectimax emptyE (0 + 1) Turn.white false () = Except.error PyErr.indexError :=
  expectimax_empty_moves_index_error emptyE 0 Turn.white false () rfl rfl

/-- C6, counterexample: on a position with zero legal moves, RandomAgent fails
with the generic IndexError raised by random.choice on an empty sequence, not
with a defined NoLegalMoves error (no such error exists in the code). -/
theorem random_empty_index_error :
    RandomAgent.random emptyE () 0 = (Except.error PyErr.indexError, ()) := rfl

/-- C6, amended: when the legal-move set is empty, RandomAgent.random fails
with the generic IndexError of random.choice (the code defines no NoLegalMoves
error); when it is non-empty and the UCI round trip is the identity, it
returns a member of the legal-move set; in both cases the board is untouched. -/
theorem random_member_or_index_error (e : Engine B M) (b : B) (pick : Nat)
    (hU : ∀ m, e.from_uci m = m) :
    (e.legal_moves b = [] →
      RandomAgent.random e b pick = (Except.error PyErr.indexError, b)) ∧
    (e.legal_moves b ≠ [] →
      ∃ m, m ∈ e.legal_moves b ∧ RandomAgent.random e b pick = (Except.ok m, b)) ∧
    (RandomAgent.random e b pick).2 = b := by
  rcases h : e.legal_moves b with _ | ⟨m0, ms⟩
  · exact ⟨fun _ => by simp [RandomAgent.random, h], fun hne => absurd rfl hne,
      by simp [RandomAgent.random, h]⟩
  · refine ⟨fun hc => absurd hc (List.cons_ne_nil _ _), fun _ => ?_,
      by simp [RandomAgent.random, h]⟩
    refine ⟨(m0 :: ms).get ⟨pick % (m0 :: ms).length, Nat.mod_lt _ (Nat.succ_pos _)⟩,
      ?_, ?_⟩
    · apply List.get_mem
    · simp [RandomAgent.random, h, hU]

/-- C6, witness: on the two-move demo engine below the amended theorem yields a
legal member; evaluated at the empty engine it yields the IndexError. -/
theorem random_member_or_index_error_witness :
    (emptyE.legal_moves () = [] →
      RandomAgent.random emptyE () 3 = (Except.error PyErr.indexError, ())) ∧
    (emptyE.legal_moves () ≠ [] →
      ∃ m, m ∈ emptyE.legal_moves () ∧
        RandomAgent.random emptyE () 3 = (Except.ok m, ())) ∧
    (RandomAgent.random emptyE () 3).2 = () :=
  random_member_or_index_error emptyE () 3 (fun _ => rfl)

/-- C10: MinimaxAgent.get_action returns no move whenever the depth is 0 or the
position is already game over, because the root call hits the base case and the
move half of the base result is absent. -/
theorem get_action_depth_zero_or_over_none (e : Engine B M) (depth : Nat) (b : B)
    (h : depth = 0 ∨ e.is_game_over b = true) :
    (MinimaxAgent.get_action e depth b).1 = none := by
  rcases h with h | h
  · subst h; rfl
  · cases depth with
    | zero => rfl
    | succ d => simp [MinimaxAgent.get_action, minimax, h]

/-- C10, witness at depth 0 on the empty demo engine. -/
theorem get_action_depth_zero_or_over_none_witness :
    (0 = 0 ∨ emptyE.is_game_over () = true) ∧
    (MinimaxAgent.get_action emptyE 0 ()).1 = none :=
  ⟨Or.inl rfl, get_action_depth_zero_or_over_none emptyE 0 () (Or.inl rfl)⟩

/-- C4, counterexample: at the synthetic three-move chance node with child
values 2, 4 and 6, expectimax returns the exact mean 4 but attaches the first
legal move rather than no move: best_move is initialized to
possible_moves_list[0] and the chance branch never clears it. -/
theorem chance_node_returns_first_move_not_none :
    expectimax chanceE 1 Turn.black false 0 =
      Except.ok ((Val.num 4, some 2), 0) ∧ (some 2 : Option Nat) ≠ none := by
  refine ⟨?_, by decide⟩
  simp only [expectimax, expSumLoop, chanceE, leafMax, evaluate_board_state,
    Turn.next, Val.add, Val.div]
  norm_num

/-- Demo engine with two legal moves everywhere: boards are stacks of Boolean
moves, so push is cons and pop is tail, and the static evaluation reads the
binary number spelled by the stack. -/
def demoE : Engine (List Bool) Bool where
  turn := fun b => b.length % 2 = 0
  is_game_over := fun _ => false
  legal_moves := fun _ => [false, true]
  push := fun b m => m :: b
  pop := fun b => b.tail
  from_uci := fun m => m
  check_status := fun _ => 0
  evaluationBoard := fun b => b.foldr (fun m acc => 2 * acc + (if m then 1 else 0)) 0
  checkmate_status := fun _ => 0
  good_square_moves := fun _ => 0

/-- Board restoration through the minimax maximizing loop: if undo inverts
apply and every child call restores the board, so does the whole loop. -/
theorem maxLoop_board (e : Engine B M) (hpp : ∀ b m, e.pop (e.push b m) = b)
    (child : B → Val × B) (hc : ∀ b', (child b').2 = b') :
    ∀ (ms : List M) (b : B) (bv : Val) (bm : Option M),
      (maxLoop e child ms b bv bm).2 = b := by
  intro ms
  induction ms with
  | nil => intro b bv bm; rfl
  | cons m ms ih =>
    intro b bv bm
    simp only [maxLoop, hc, hpp]
    split <;> apply ih

/-- Board restoration through the minimax minimizing loop. -/
theorem minLoop_board (e : Engine B M) (hpp : ∀ b m, e.pop (e.push b m) = b)
    (child : B → Val × B) (hc : ∀ b', (child b').2 = b') :
    ∀ (ms : List M) (b : B) (bv : Val) (bm : Option M),
      (minLoop e child ms b bv bm).2 = b := by
  intro ms
  induction ms with
  | nil => intro b bv bm; rfl
  | cons m ms ih =>
    intro b bv bm
    simp only [minLoop, hc, hpp]
    split <;> apply ih

/-- MinimaxAgent.minimax restores the shared board on every call. -/
theorem minimax_board (e : Engine B M) (hpp : ∀ b m, e.pop (e.push b m) = b) :
    ∀ (d : Nat) (t : Turn) (mx : Bool) (b : B), (minimax e d t mx b).2 = b := by
  intro d
  induction d with
  | zero => intro t mx b; rfl
  | succ d ih =>
    intro t mx b
    simp only [minimax]
    split
    · rfl
    · split
      · exact maxLoop_board e hpp _ (fun b' => ih t.next false b') _ _ _ _
      · exact minLoop_board e hpp _ (fun b' => ih t.next true b') _ _ _ _

/-- Board restoration through the alpha-beta maximizing loop, including the
beta-cutoff break path: the pop on line 116 precedes the break. -/
theorem abMaxLoop_board (e : Engine B M) (hpp : ∀ b m, e.pop (e.push b m) = b)
    (child : Val → Val → B → Val × B) (hc : ∀ al be b', (child al be b').2 = b') :
    ∀ (ms : List M) (b : B) (bv : Val) (bm : Option M) (alpha beta : Val),
      (abMaxLoop e child ms b bv bm alpha beta).2 = b := by
  intro ms
  induction ms with
  | nil => intro b bv bm alpha beta; rfl
  | cons m ms ih =>
    intro b bv bm alpha beta
    simp only [abMaxLoop, hc, hpp]
    split <;> split <;> first | rfl | apply ih

/-- Board restoration through the alpha-beta minimizing loop, including the
alpha-cutoff break path. -/
theorem abMinLoop_board (e : Engine B M) (hpp : ∀ b m, e.pop (e.push b m) = b)
    (child : Val → Val → B → Val × B) (hc : ∀ al be b', (child al be b').2 = b') :
    ∀ (ms : List M) (b : B) (bv : Val) (bm : Option M) (alpha beta : Val),
      (abMinLoop e child ms b bv bm alpha beta).2 = b := by
  intro ms
  induction ms with
  | nil => intro b bv bm alpha beta; rfl
  | cons m ms ih =>
    intro b bv bm alpha beta
    simp only [abMinLoop, hc, hpp]
    split <;> split <;> first | rfl | apply ih

/-- AlphaBetaAgent.alpha_beta restores the shared board on every call, on the
full-enumeration paths and on the pruning-induced early exits alike. -/
theorem alpha_beta_board (e : Engine B M) (hpp : ∀ b m, e.pop (e.push b m) = b) :
    ∀ (d : Nat) (t : Turn) (mx : Bool) (alpha beta : Val) (b : B),
      (alpha_beta e d t mx alpha beta b).2 = b := by
  intro d
  induction d with
  | zero => intro t mx alpha beta b; rfl
  | succ d ih =>
    intro t mx alpha beta b
    simp only [alpha_beta]
    split
    · rfl
    · split
      · exact abMaxLoop_board e hpp _ (fun al be b' => ih t.next false al be b') _ _ _ _ _ _
      · exact abMinLoop_board e hpp _ (fun al be b' => ih t.next true al be b') _ _ _ _ _ _

/-- Board restoration through the expectimax maximizing loop whenever the loop
returns normally. -/
theorem expMaxLoop_board (e : Engine B M) (hpp : ∀ b m, e.pop (e.push b m) = b)
    (child : B → Except PyErr (Val × B))
    (hc : ∀ b' s, child b' = Except.ok s → s.2 = b') :
    ∀ (ms : List M) (b : B) (bv : Val) (bm : M) (r : (Val × M) × B),
      expMaxLoop e child ms b bv bm = Except.ok r → r.2 = b := by
  intro ms
  induction ms with
  | nil =>
    intro b bv bm r h
    cases h
    rfl
  | cons m ms ih =>
    intro b bv bm r h
    rw [expMaxLoop] at h
    split at h
    · cases h
    · next s hch =>
      rw [hc _ _ hch, hpp] at h
      split at h <;> exact ih _ _ _ _ h

/-- Board restoration through the expectimax chance-node loop whenever the loop
returns normally. -/
theorem expSumLoop_board (e : Engine B M) (hpp : ∀ b m, e.pop (e.push b m) = b)
    (child : B → Except PyErr (Val × B))
    (hc : ∀ b' s, child b' = Except.ok s → s.2 = b') :
    ∀ (ms : List M) (b : B) (acc : Val) (r : Val × B),
      expSumLoop e child ms b acc = Except.ok r → r.2 = b := by
  intro ms
  induction ms with
  | nil =>
    intro b acc r h
    cases h
    rfl
  | cons m ms ih =>
    intro b acc r h
    rw [expSumLoop] at h
    split at h
    · cases h
    · next s hch =>
      rw [hc _ _ hch, hpp] at h
      exact ih _ _ _ h

/-- ExpectimaxAgent.expectimax restores the shared board whenever it returns
normally (when it raises, the exception propagates past the pops). -/
theorem expectimax_board (e : Engine B M) (hpp : ∀ b m, e.pop (e.push b m) = b) :
    ∀ (d : Nat) (t : Turn) (mx : Bool) (b : B) (r : (Val × Option M) × B),
      expectimax e d t mx b = Except.ok r → r.2 = b := by
  intro d
  induction d with
  | zero =>
    intro t mx b r h
    cases h
    rfl
  | succ d ih =>
    intro t mx b r h
    rw [expectimax] at h
    split at h
    · cases h
      rfl
    · split at h
      · cases h
      · split at h
        · split at h
          · cases h
          · next rr hl =>
            cases h
            refine expMaxLoop_board e hpp _ ?_ _ _ _ _ _ hl
            intro b' s hs
            split at hs
            · cases hs
            · next rx hx =>
              cases hs
              exact ih t.next false b' rx hx
        · split at h
          · cases h
          · next rr hl =>
            cases h
            refine expSumLoop_board e hpp _ ?_ _ _ _ _ hl
            intro b' s hs
            split at hs
            · cases hs
            · next rx hx =>
              cases hs
              exact ih t.next true b' rx hx

/-- C2: under the engine contract that undoLastMove exactly inverts applyMove,
every search (minimax, alpha_beta with any window, expectimax) returns the
shared board in exactly its pre-call state whenever the root call returns,
including the alpha-beta branches that exit early through break. -/
theorem search_restores_board (e : Engine B M)
    (hpp : ∀ b m, e.pop (e.push b m) = b) (d : Nat) (t : Turn) (mx : Bool)
    (alpha beta : Val) (b : B) :
    (minimax e d t mx b).2 = b ∧
    (alpha_beta e d t mx alpha beta b).2 = b ∧
    (expectimax e d t mx b).toOption.map (fun r => r.2) =
      (expectimax e d t mx b).toOption.map (fun _ => b) := by
  refine ⟨minimax_board e hpp d t mx b, alpha_beta_board e hpp d t mx alpha beta b, ?_⟩
  rcases hx : expectimax e d t mx b with er | r
  · rfl
  · simp [Except.toOption, expectimax_board e hpp d t mx b r hx]

/-- C2, witness: the three searches restore the concrete demo board. -/
theorem search_restores_board_witness :
    (minimax demoE 2 Turn.white true []).2 = [] ∧
    (alpha_beta demoE 2 Turn.white true Val.ninf Val.pinf []).2 = [] ∧
    (expectimax demoE 2 Turn.white true []).toOption.map (fun r => r.2) =
      (expectimax demoE 2 Turn.white true []).toOption.map (fun _ => []) :=
  search_restores_board demoE (fun _ _ => rfl) 2 Turn.white true Val.ninf Val.pinf []

/-- When no remaining child strictly beats the running best value, the minimax
maximizing loop keeps both the running best value and the running best move. -/
theorem maxLoop_no_improvement (e : Engine B M) (hpp : ∀ b m, e.pop (e.push b m) = b)
    (child : B → Val × B) (hc : ∀ b', (child b').2 = b') :
    ∀ (ms : List M) (b : B) (bv : Val) (bm : Option M),
      (∀ m ∈ ms, (child (e.push b (e.from_uci m))).1 ≤ bv) →
      maxLoop e child ms b bv bm = ((bv, bm), b) := by
  intro ms
  induction ms with
  | nil => intro b bv bm _; rfl
  | cons m ms ih =>
    intro b bv bm hall
    simp only [maxLoop, hc, hpp]
    rw [if_neg (not_lt.mpr (hall m (List.mem_cons_self _ _)))]
    exact ih b bv bm (fun m' hm' => hall m' (List.mem_cons_of_mem _ hm'))

/-- When no remaining child strictly undercuts the running best value, the
minimax minimizing loop keeps both the running best value and best move. -/
theorem minLoop_no_improvement (e : Engine B M) (hpp : ∀ b m, e.pop (e.push b m) = b)
    (child : B → Val × B) (hc : ∀ b', (child b').2 = b') :
    ∀ (ms : List M) (b : B) (bv : Val) (bm : Option M),
      (∀ m ∈ ms, bv ≤ (child (e.push b (e.from_uci m))).1) →
      minLoop e child ms b bv bm = ((bv, bm), b) := by
  intro ms
  induction ms with
  | nil => intro b bv bm _; rfl
  | cons m ms ih =>
    intro b bv bm hall
    simp only [minLoop, hc, hpp]
    rw [if_neg (not_lt.mpr (hall m (List.mem_cons_self _ _)))]
    exact ih b bv bm (fun m' hm' => hall m' (List.mem_cons_of_mem _ hm'))

/-- C5: minimax replaces the running best only on a strictly greater value at a
maximizing node (strictly smaller at a minimizing node), so when all legal
moves yield one identical child value the move returned is the first move in
the engine enumeration order, at maximizing and minimizing nodes alike; being
a pure function of its arguments, the choice is the same on every run. -/
theorem minimax_tie_break_first_move (e : Engine B M)
    (hpp : ∀ b m, e.pop (e.push b m) = b) (d : Nat) (t : Turn) (b : B)
    (m0 : M) (ms : List M) (q q2 : ℚ)
    (hover : e.is_game_over b = false) (hmoves : e.legal_moves b = m0 :: ms)
    (hmaxch : ∀ m ∈ m0 :: ms,
      (minimax e d t.next false (e.push b (e.from_uci m))).1.1 = Val.num q)
    (hminch : ∀ m ∈ m0 :: ms,
      (minimax e d t.next true (e.push b (e.from_uci m))).1.1 = Val.num q2) :
    (minimax e (d + 1) t true b).1.2 = some (e.from_uci m0) ∧
    (minimax e (d + 1) t false b).1.2 = some (e.from_uci m0) := by
  constructor
  · have hc : ∀ b', (minimax e d t.next false b').2 = b' :=
      fun b' => minimax_board e hpp d t.next false b'
    simp only [minimax, hover, Bool.false_eq_true, if_false, hmoves, if_true,
      maxLoop, hc, hpp]
    rw [hmaxch m0 (List.mem_cons_self _ _),
      if_pos (Val.ninf_lt_num q),
      maxLoop_no_improvement e hpp _ (fun b' => rfl) ms b (Val.num q)
        (some (e.from_uci m0))
        (fun m' hm' => le_of_eq (hmaxch m' (List.mem_cons_of_mem _ hm')))]
  · have hc : ∀ b', (minimax e d t.next true b').2 = b' :=
      fun b' => minimax_board e hpp d t.next true b'
    simp only [minimax, hover, Bool.false_eq_true, if_false, hmoves, if_true,
      minLoop, hc, hpp]
    rw [hminch m0 (List.mem_cons_self _ _),
      if_pos (Val.num_lt_pinf q2),
      minLoop_no_improvement e hpp _ (fun b' => rfl) ms b (Val.num q2)
        (some (e.from_uci m0))
        (fun m' hm' => ge_of_eq (hminch m' (List.mem_cons_of_mem _ hm')))]

/-- Demo engine on which every leaf evaluates to the same score 7, producing
value ties between all moves. -/
def tieE : Engine (List Bool) Bool where
  turn := fun _ => true
  is_game_over := fun _ => false
  legal_moves := fun _ => [false, true]
  push := fun b m => m :: b
  pop := fun b => b.tail
  from_uci := fun m => m
  check_status := fun _ => 0
  evaluationBoard := fun _ => 7
  checkmate_status := fun _ => 0
  good_square_moves := fun _ => 0

/-- C5, witness: on the all-ties demo engine both the maximizing and the
minimizing node at depth 1 return the first enumerated move. -/
theorem minimax_tie_break_first_move_witness :
    (minimax tieE (0 + 1) Turn.white true []).1.2 = some (tieE.from_uci false) ∧
    (minimax tieE (0 + 1) Turn.white false []).1.2 = some (tieE.from_uci false) :=
  minimax_tie_break_first_move tieE (fun _ _ => rfl) 0 Turn.white [] false [true] 7 7
    rfl rfl
    (by
      intro m hm
      simp only [minimax, leafColor, evaluate_board_state, tieE, Turn.next,
        if_neg (by decide : ¬Turn.black = Turn.white)]
      norm_num [Val.num.injEq])
    (by
      intro m hm
      simp only [minimax, leafColor, evaluate_board_state, tieE, Turn.next,
        if_neg (by decide : ¬Turn.black = Turn.white)]
      norm_num [Val.num.injEq])

/-- Accumulator computation of the expectimax chance-node loop: when every
child call returns a finite value and restores its board, the loop adds up
exactly the child values. -/
theorem expSumLoop_sum (e : Engine B M) (hpp : ∀ b m, e.pop (e.push b m) = b)
    (child : B → Except PyErr (Val × B)) (f : M → ℚ) :
    ∀ (ms : List M) (b : B),
      (∀ m ∈ ms, child (e.push b (e.from_uci m)) =
        Except.ok (Val.num (f m), e.push b (e.from_uci m))) →
      ∀ acc : ℚ, expSumLoop e child ms b (Val.num acc) =
        Except.ok (Val.num (acc + (ms.map f).sum), b) := by
  intro ms
  induction ms with
  | nil =>
    intro b _ acc
    simp [expSumLoop]
  | cons m ms ih =>
    intro b hall acc
    rw [expSumLoop, hall m (List.mem_cons_self _ _)]
    simp only [hpp]
    rw [show (Val.num acc).add (Val.num (f m)) = Val.num (acc + f m) from rfl,
      ih b (fun m' hm' => hall m' (List.mem_cons_of_mem _ hm')) (acc + f m)]
    simp [add_assoc]

/-- C4, amended: at a chance node (positive depth, not game over, maximizing
flag false) whose children all return finite values, expectimax returns the
exact arithmetic mean of the child values, but the returned move is the first
legal move of the node (best_move = possible_moves_list[0]), not absent. -/
theorem chance_node_mean_first_move (e : Engine B M)
    (hpp : ∀ b m, e.pop (e.push b m) = b) (d : Nat) (t : Turn) (b : B)
    (m0 : M) (ms : List M) (f : M → ℚ)
    (hover : e.is_game_over b = false) (hmoves : e.legal_moves b = m0 :: ms)
    (hch : ∀ m ∈ m0 :: ms, ∃ om,
      expectimax e d t.next true (e.push b (e.from_uci m)) =
        Except.ok ((Val.num (f m), om), e.push b (e.from_uci m))) :
    expectimax e (d + 1) t false b =
      Except.ok
        ((Val.num ((((m0 :: ms).map f).sum) / (((m0 :: ms).length : ℕ) : ℚ)),
          some m0), b) := by
  have hchild : ∀ m ∈ m0 :: ms,
      (match expectimax e d t.next true (e.push b (e.from_uci m)) with
        | Except.error er => Except.error er
        | Except.ok r => Except.ok (r.1.1, r.2)) =
        Except.ok (Val.num (f m), e.push b (e.from_uci m)) := by
    intro m hm
    obtain ⟨om, hx⟩ := hch m hm
    rw [hx]
  simp only [expectimax, hover, Bool.false_eq_true, if_false, hmoves]
  rw [expSumLoop_sum e hpp _ f (m0 :: ms) b hchild 0]
  simp [Val.div]

/-- C4, witness for the amended theorem at the synthetic three-move chance node
with child values 2, 4 and 6: the mean 4 comes with the first legal move. -/
theorem chance_node_mean_first_move_witness :
    expectimax chanceE (0 + 1) Turn.black false 0 =
      Except.ok
        ((Val.num (((([2, 4, 6] : List ℕ).map
            (fun m => ((m % 10 : ℕ) : ℚ))).sum) /
          ((([2, 4, 6] : List ℕ).length : ℕ) : ℚ)), some 2), 0) :=
  chance_node_mean_first_move chanceE
    (by intro b m; show (b * 10 + m % 10) / 10 = b; omega) 0 Turn.black 0 2 [4, 6]
    (fun m => ((m % 10 : ℕ) : ℚ)) rfl rfl
    (by
      intro m hm
      exact ⟨none,
        by simp [expectimax, leafMax, evaluate_board_state, chanceE, Turn.next]⟩)

/-- Proof-side mirror of the value half of minimax: under push/pop symmetry
the loops compute a fold of max (resp. min) over the child values. -/
def mVal (e : Engine B M) : Nat → Turn → Bool → B → Val
  | 0, turn, _, b => leafColor e b turn
  | d + 1, turn, is_maximizing, b =>
    if e.is_game_over b then leafColor e b turn
    else if is_maximizing then
      (e.legal_moves b).foldl
        (fun a m => max a (mVal e d turn.next false (e.push b (e.from_uci m))))
        Val.ninf
    else
      (e.legal_moves b).foldl
        (fun a m => min a (mVal e d turn.next true (e.push b (e.from_uci m))))
        Val.pinf

/-- Proof-side mirror of the value half of the alpha-beta maximizing loop. -/
def aMax (e : Engine B M) (child : Val → Val → B → Val) :
    List M → B → Val → Val → Val → Val
  | [], _, a, _, _ => a
  | m :: ms, b, a, alpha, beta =>
    let a2 := max a (child alpha beta (e.push b (e.from_uci m)))
    if beta ≤ a2 then a2 else aMax e child ms b a2 (max alpha a2) beta

/-- Proof-side mirror of the value half of the alpha-beta minimizing loop. -/
def aMin (e : Engine B M) (child : Val → Val → B → Val) :
    List M → B → Val → Val → Val → Val
  | [], _, a, _, _ => a
  | m :: ms, b, a, alpha, beta =>
    let a2 := min a (child alpha beta (e.push b (e.from_uci m)))
    if a2 ≤ alpha then a2 else aMin e child ms b a2 alpha (min beta a2)

/-- Proof-side mirror of the value half of alpha_beta. -/
def aVal (e : Engine B M) : Nat → Turn → Bool → Val → Val → B → Val
  | 0, turn, _, _, _, b => leafColor e b turn
  | d + 1, turn, is_maximizing, alpha, beta, b =>
    if e.is_game_over b then leafColor e b turn
    else if is_maximizing then
      aMax e (fun al be b' => aVal e d turn.next false al be b')
        (e.legal_moves b) b Val.ninf alpha beta
    else
      aMin e (fun al be b' => aVal e d turn.next true al be b')
        (e.legal_moves b) b Val.pinf alpha beta

/-- The minimax maximizing loop computes the left fold of max over the child
values. -/
theorem maxLoop_val (e : Engine B M) (hpp : ∀ b m, e.pop (e.push b m) = b)
    (child : B → Val × B) (hc : ∀ b', (child b').2 = b') :
    ∀ (ms : List M) (b : B) (bv : Val) (bm : Option M),
      (maxLoop e child ms b bv bm).1.1 =
        ms.foldl (fun a m => max a (child (e.push b (e.from_uci m))).1) bv := by
  intro ms
  induction ms with
  | nil => intro b bv bm; rfl
  | cons m ms ih =>
    intro b bv bm
    simp only [maxLoop, hc, hpp, List.foldl_cons]
    by_cases h : (child (e.push b (e.from_uci m))).1 > bv
    · rw [if_pos h, ih, max_eq_right h.le]
    · rw [if_neg h, ih, max_eq_left (not_lt.mp h)]

/-- The minimax minimizing loop computes the left fold of min over the child
values. -/
theorem minLoop_val (e : Engine B M) (hpp : ∀ b m, e.pop (e.push b m) = b)
    (child : B → Val × B) (hc : ∀ b', (child b').2 = b') :
    ∀ (ms : List M) (b : B) (bv : Val) (bm : Option M),
      (minLoop e child ms b bv bm).1.1 =
        ms.foldl (fun a m => min a (child (e.push b (e.from_uci m))).1) bv := by
  intro ms
  induction ms with
  | nil => intro b bv bm; rfl
  | cons m ms ih =>
    intro b bv bm
    simp only [minLoop, hc, hpp, List.foldl_cons]
    by_cases h : (child (e.push b (e.from_uci m))).1 < bv
    · rw [if_pos h, ih, min_eq_right h.le]
    · rw [if_neg h, ih, min_eq_left (not_lt.mp h)]

/-- The value half of minimax agrees with its pure mirror mVal. -/
theorem minimax_val (e : Engine B M) (hpp : ∀ b m, e.pop (e.push b m) = b) :
    ∀ (d : Nat) (t : Turn) (mx : Bool) (b : B),
      (minimax e d t mx b).1.1 = mVal e d t mx b := by
  intro d
  induction d with
  | zero => intro t mx b; rfl
  | succ d ih =>
    intro t mx b
    simp only [minimax, mVal]
    split
    · rfl
    · split
      · rw [maxLoop_val e hpp _ (fun b' => minimax_board e hpp d t.next false b')]
        simp only [ih]
      · rw [minLoop_val e hpp _ (fun b' => minimax_board e hpp d t.next true b')]
        simp only [ih]

/-- The value half of the alpha-beta maximizing loop agrees with its pure
mirror aMax. -/
theorem abMaxLoop_val (e : Engine B M) (hpp : ∀ b m, e.pop (e.push b m) = b)
    (childF : Val → Val → B → Val × B) (childP : Val → Val → B → Val)
    (hc : ∀ al be b', (childF al be b').2 = b')
    (hv : ∀ al be b', (childF al be b').1 = childP al be b') :
    ∀ (ms : List M) (b : B) (bv : Val) (bm : Option M) (alpha beta : Val),
      (abMaxLoop e childF ms b bv bm alpha beta).1.1 =
        aMax e childP ms b bv alpha beta := by
  intro ms
  induction ms with
  | nil => intro b bv bm alpha beta; rfl
  | cons m ms ih =>
    intro b bv bm alpha beta
    simp only [abMaxLoop, aMax, hc, hpp, hv]
    by_cases h : childP alpha beta (e.push b (e.from_uci m)) > bv
    · rw [if_pos h, max_eq_right h.le]
      by_cases hcut : beta ≤ childP alpha beta (e.push b (e.from_uci m))
      · rw [if_pos hcut, if_pos hcut]
      · rw [if_neg hcut, if_neg hcut]
        exact ih b _ _ _ beta
    · rw [if_neg h, max_eq_left (not_lt.mp h)]
      by_cases hcut : beta ≤ bv
      · rw [if_pos hcut, if_pos hcut]
      · rw [if_neg hcut, if_neg hcut]
        exact ih b _ _ _ beta

/-- The value half of the alpha-beta minimizing loop agrees with its pure
mirror aMin. -/
theorem abMinLoop_val (e : Engine B M) (hpp : ∀ b m, e.pop (e.push b m) = b)
    (childF : Val → Val → B → Val × B) (childP : Val → Val → B → Val)
    (hc : ∀ al be b', (childF al be b').2 = b')
    (hv : ∀ al be b', (childF al be b').1 = childP al be b') :
    ∀ (ms : List M) (b : B) (bv : Val) (bm : Option M) (alpha beta : Val),
      (abMinLoop e childF ms b bv bm alpha beta).1.1 =
        aMin e childP ms b bv alpha beta := by
  intro ms
  induction ms with
  | nil => intro b bv bm alpha beta; rfl
  | cons m ms ih =>
    intro b bv bm alpha beta
    simp only [abMinLoop, aMin, hc, hpp, hv]
    by_cases h : childP alpha beta (e.push b (e.from_uci m)) < bv
    · rw [if_pos h, min_eq_right h.le]
      by_cases hcut : childP alpha beta (e.push b (e.from_uci m)) ≤ alpha
      · rw [if_pos hcut, if_pos hcut]
      · rw [if_neg hcut, if_neg hcut]
        exact ih b _ _ alpha _
    · rw [if_neg h, min_eq_left (not_lt.mp h)]
      by_cases hcut : bv ≤ alpha
      · rw [if_pos hcut, if_pos hcut]
      · rw [if_neg hcut, if_neg hcut]
        exact ih b _ _ alpha _

/-- The value half of alpha_beta agrees with its pure mirror aVal. -/
theorem alpha_beta_val (e : Engine B M) (hpp : ∀ b m, e.pop (e.push b m) = b) :
    ∀ (d : Nat) (t : Turn) (mx : Bool) (alpha beta : Val) (b : B),
      (alpha_beta e d t mx alpha beta b).1.1 = aVal e d t mx alpha beta b := by
  intro d
  induction d with
  | zero => intro t mx alpha beta b; rfl
  | succ d ih =>
    intro t mx alpha beta b
    simp only [alpha_beta, aVal]
    split
    · rfl
    · split
      · exact abMaxLoop_val e hpp _ _
          (fun al be b' => alpha_beta_board e hpp d t.next false al be b')
          (fun al be b' => ih t.next false al be b') _ _ _ _ _ _
      · exact abMinLoop_val e hpp _ _
          (fun al be b' => alpha_beta_board e hpp d t.next true al be b')
          (fun al be b' => ih t.next true al be b') _ _ _ _ _ _

/-- The seed of a left fold of max is a lower bound of the fold. -/
theorem le_foldl_max (v : M → Val) :
    ∀ (ms : List M) (a : Val), a ≤ ms.foldl (fun acc m => max acc (v m)) a := by
  intro ms
  induction ms with
  | nil => intro a; exact le_refl a
  | cons m ms ih =>
    intro a
    exact le_trans (le_max_left a (v m)) (ih (max a (v m)))

/-- The seed of a left fold of min is an upper bound of the fold. -/
theorem foldl_min_le (v : M → Val) :
    ∀ (ms : List M) (a : Val), ms.foldl (fun acc m => min acc (v m)) a ≤ a := by
  intro ms
  induction ms with
  | nil => intro a; exact le_refl a
  | cons m ms ih =>
    intro a
    exact le_trans (ih (min a (v m))) (min_le_left a (v m))

/-- Fail-soft bounds for the pure alpha-beta maximizing loop: relative to the
fixed lower window bound alpha0, the loop result bounds the true fold of max of
the child values from below when it fails high, bounds it from above when it
fails low, and equals it when it lands strictly inside the window.  The running
best a carries the ghost invariant that it dominates the true prefix fold p and
agrees with it unless it is still at most alpha0. -/
theorem aMax_failsoft (e : Engine B M) (child : Val → Val → B → Val)
    (v : M → Val) (b : B)
    (hIH : ∀ (alpha beta : Val) (m : M), alpha < beta →
      (child alpha beta (e.push b (e.from_uci m)) ≤ alpha →
        v m ≤ child alpha beta (e.push b (e.from_uci m))) ∧
      (beta ≤ child alpha beta (e.push b (e.from_uci m)) →
        child alpha beta (e.push b (e.from_uci m)) ≤ v m) ∧
      (alpha < child alpha beta (e.push b (e.from_uci m)) →
        child alpha beta (e.push b (e.from_uci m)) < beta →
        child alpha beta (e.push b (e.from_uci m)) = v m)) :
    ∀ (ms : List M) (a p alpha0 beta : Val),
      p ≤ a → (a ≤ alpha0 ∨ a = p) → a < beta → alpha0 < beta →
      (aMax e child ms b a (max alpha0 a) beta ≤ alpha0 →
        ms.foldl (fun acc m => max acc (v m)) p ≤
          aMax e child ms b a (max alpha0 a) beta) ∧
      (beta ≤ aMax e child ms b a (max alpha0 a) beta →
        aMax e child ms b a (max alpha0 a) beta ≤
          ms.foldl (fun acc m => max acc (v m)) p) ∧
      (alpha0 < aMax e child ms b a (max alpha0 a) beta →
        aMax e child ms b a (max alpha0 a) beta < beta →
        aMax e child ms b a (max alpha0 a) beta =
          ms.foldl (fun acc m => max acc (v m)) p) := by
  intro ms
  induction ms with
  | nil =>
    intro a p alpha0 beta hpa hdisj hab h0b
    refine ⟨fun _ => hpa, fun hb => absurd hab (not_lt.mpr hb), fun h1 _ => ?_⟩
    rcases hdisj with hle | heq
    · exact absurd h1 (not_lt.mpr hle)
    · exact heq
  | cons m ms ih =>
    intro a p alpha0 beta hpa hdisj hab h0b
    have hwin : max alpha0 a < beta := max_lt h0b hab
    obtain ⟨hA, hB, hC⟩ := hIH (max alpha0 a) beta m hwin
    simp only [aMax, List.foldl_cons]
    set c := child (max alpha0 a) beta (e.push b (e.from_uci m)) with hcdef
    have harg : max (max alpha0 a) (max a c) = max alpha0 (max a c) := by
      rw [max_assoc]
      congr 1
      rw [← max_assoc, max_self]
    by_cases hcut : beta ≤ max a c
    · rw [if_pos hcut]
      have hmc : max a c = c := by
        rcases max_cases a c with ⟨he, hle⟩ | ⟨he, _⟩
        · rw [he] at hcut
          exact absurd hcut (not_le.mpr hab)
        · exact he
      rw [hmc] at hcut ⊢
      have hcv : c ≤ v m := hB hcut
      refine ⟨fun hra => absurd (le_trans hcut hra) (not_le.mpr h0b),
        fun _ => ?_, fun _ hrb => absurd hcut (not_le.mpr hrb)⟩
      exact le_trans hcv
        (le_trans (le_max_right p (v m)) (le_foldl_max v ms (max p (v m))))
    · rw [if_neg hcut, harg]
      have ha2b : max a c < beta := not_le.mp hcut
      have hvc_le : v m ≤ max a c := by
        by_cases hclow : c ≤ max alpha0 a
        · exact le_trans (hA hclow) (le_max_right a c)
        · have h3 := hC (not_le.mp hclow) (lt_of_le_of_lt (le_max_right a c) ha2b)
          rw [← h3]
          exact le_max_right a c
      have hpa2 : max p (v m) ≤ max a c :=
        max_le (le_trans hpa (le_max_left a c)) hvc_le
      have hdisj2 : max a c ≤ alpha0 ∨ max a c = max p (v m) := by
        rcases max_cases a c with ⟨he, hle⟩ | ⟨he, hlt⟩
        · rw [he]
          rcases hdisj with h | h
          · exact Or.inl h
          · right
            have hva : v m ≤ a := by
              rw [← he]
              exact hvc_le
            rw [h] at hva ⊢
            exact (max_eq_left hva).symm
        · rw [he]
          by_cases hclow : c ≤ max alpha0 a
          · left
            rcases max_cases alpha0 a with ⟨he2, _⟩ | ⟨he2, _⟩
            · rw [he2] at hclow
              exact hclow
            · rw [he2] at hclow
              exact absurd hlt (not_lt.mpr hclow)
          · right
            have h3 := hC (not_le.mp hclow) (lt_of_le_of_lt (le_max_right a c) ha2b)
            rw [← h3]
            exact (max_eq_right (le_of_lt (lt_of_le_of_lt hpa hlt))).symm
      exact ih (max a c) (max p (v m)) alpha0 beta hpa2 hdisj2 ha2b h0b

/-- Fail-soft bounds for the pure alpha-beta minimizing loop, dual to
aMax_failsoft: the fixed bound is now beta0 and the moving window bound is the
beta argument min beta0 a. -/
theorem aMin_failsoft (e : Engine B M) (child : Val → Val → B → Val)
    (v : M → Val) (b : B)
    (hIH : ∀ (alpha beta : Val) (m : M), alpha < beta →
      (child alpha beta (e.push b (e.from_uci m)) ≤ alpha →
        v m ≤ child alpha beta (e.push b (e.from_uci m))) ∧
      (beta ≤ child alpha beta (e.push b (e.from_uci m)) →
        child alpha beta (e.push b (e.from_uci m)) ≤ v m) ∧
      (alpha < child alpha beta (e.push b (e.from_uci m)) →
        child alpha beta (e.push b (e.from_uci m)) < beta →
        child alpha beta (e.push b (e.from_uci m)) = v m)) :
    ∀ (ms : List M) (a p alpha0 beta0 : Val),
      a ≤ p → (beta0 ≤ a ∨ a = p) → alpha0 < a → alpha0 < beta0 →
      (aMin e child ms b a alpha0 (min beta0 a) ≤ alpha0 →
        ms.foldl (fun acc m => min acc (v m)) p ≤
          aMin e child ms b a alpha0 (min beta0 a)) ∧
      (beta0 ≤ aMin e child ms b a alpha0 (min beta0 a) →
        aMin e child ms b a alpha0 (min beta0 a) ≤
          ms.foldl (fun acc m => min acc (v m)) p) ∧
      (alpha0 < aMin e child ms b a alpha0 (min beta0 a) →
        aMin e child ms b a alpha0 (min beta0 a) < beta0 →
        aMin e child ms b a alpha0 (min beta0 a) =
          ms.foldl (fun acc m => min acc (v m)) p) := by
  intro ms
  induction ms with
  | nil =>
    intro a p alpha0 beta0 hap hdisj hab h0b
    refine ⟨fun h1 => absurd h1 (not_le.mpr hab), fun _ => hap, fun _ h2 => ?_⟩
    rcases hdisj with hle | heq
    · exact absurd h2 (not_lt.mpr hle)
    · exact heq
  | cons m ms ih =>
    intro a p alpha0 beta0 hap hdisj hab h0b
    have hwin : alpha0 < min beta0 a := lt_min h0b hab
    obtain ⟨hA, hB, hC⟩ := hIH alpha0 (min beta0 a) m hwin
    simp only [aMin, List.foldl_cons]
    set c := child alpha0 (min beta0 a) (e.push b (e.from_uci m)) with hcdef
    have harg : min (min beta0 a) (min a c) = min beta0 (min a c) := by
      rw [min_assoc]
      congr 1
      rw [← min_assoc, min_self]
    by_cases hcut : min a c ≤ alpha0
    · rw [if_pos hcut]
      have hmc : min a c = c := by
        rcases min_cases a c with ⟨he, _⟩ | ⟨he, _⟩
        · rw [he] at hcut
          exact absurd hcut (not_le.mpr hab)
        · exact he
      rw [hmc] at hcut ⊢
      have hcv : v m ≤ c := hA hcut
      refine ⟨fun _ => ?_, fun hbr => absurd (le_trans hbr hcut) (not_le.mpr h0b),
        fun h1 _ => absurd hcut (not_le.mpr h1)⟩
      exact le_trans (foldl_min_le v ms (min p (v m)))
        (le_trans (min_le_right p (v m)) hcv)
    · rw [if_neg hcut, harg]
      have ha2 : alpha0 < min a c := not_le.mp hcut
      have hvc : min a c ≤ v m := by
        by_cases hchigh : min beta0 a ≤ c
        · exact le_trans (min_le_right a c) (hB hchigh)
        · have h3 := hC (lt_of_lt_of_le ha2 (min_le_right a c)) (not_le.mp hchigh)
          rw [← h3]
          exact min_le_right a c
      have hpa2 : min a c ≤ min p (v m) :=
        le_min (le_trans (min_le_left a c) hap) hvc
      have hdisj2 : beta0 ≤ min a c ∨ min a c = min p (v m) := by
        rcases min_cases a c with ⟨he, hle⟩ | ⟨he, hlt⟩
        · rw [he]
          rcases hdisj with h | h
          · exact Or.inl h
          · right
            have hva : a ≤ v m := by
              rw [← he]
              exact hvc
            rw [h] at hva ⊢
            exact (min_eq_left hva).symm
        · rw [he]
          by_cases hchigh : min beta0 a ≤ c
          · left
            rcases min_cases beta0 a with ⟨he2, _⟩ | ⟨he2, _⟩
            · rw [he2] at hchigh
              exact hchigh
            · rw [he2] at hchigh
              exact absurd hlt (not_lt.mpr hchigh)
          · right
            have h3 := hC (lt_of_lt_of_le ha2 (min_le_right a c)) (not_le.mp hchigh)
            rw [← h3]
            exact (min_eq_right (le_of_lt (lt_of_lt_of_le hlt hap))).symm
      exact ih (min a c) (min p (v m)) alpha0 beta0 hpa2 hdisj2 ha2 h0b

/-- Fail-soft correctness of the pure alpha-beta value: for any window with
alpha < beta, the alpha-beta value bounds the minimax value from above when it
fails low, from below when it fails high, and equals it strictly inside the
window. -/
theorem aVal_failsoft (e : Engine B M) :
    ∀ (d : Nat) (t : Turn) (mx : Bool) (alpha beta : Val) (b : B), alpha < beta →
      (aVal e d t mx alpha beta b ≤ alpha →
        mVal e d t mx b ≤ aVal e d t mx alpha beta b) ∧
      (beta ≤ aVal e d t mx alpha beta b →
        aVal e d t mx alpha beta b ≤ mVal e d t mx b) ∧
      (alpha < aVal e d t mx alpha beta b → aVal e d t mx alpha beta b < beta →
        aVal e d t mx alpha beta b = mVal e d t mx b) := by
  intro d
  induction d with
  | zero =>
    intro t mx alpha beta b hab
    exact ⟨fun _ => le_refl _, fun _ => le_refl _, fun _ _ => rfl⟩
  | succ d ih =>
    intro t mx alpha beta b hab
    simp only [aVal, mVal]
    split
    · exact ⟨fun _ => le_refl _, fun _ => le_refl _, fun _ _ => rfl⟩
    · split
      · have H := aMax_failsoft e (fun al be b' => aVal e d t.next false al be b')
          (fun m => mVal e d t.next false (e.push b (e.from_uci m))) b
          (fun al be m hw => ih t.next false al be (e.push b (e.from_uci m)) hw)
          (e.legal_moves b) Val.ninf Val.ninf alpha beta (le_refl _) (Or.inr rfl)
          (lt_of_le_of_lt (Val.ninf_le alpha) hab) hab
        rw [Val.max_ninf] at H
        exact H
      · have H := aMin_failsoft e (fun al be b' => aVal e d t.next true al be b')
          (fun m => mVal e d t.next true (e.push b (e.from_uci m))) b
          (fun al be m hw => ih t.next true al be (e.push b (e.from_uci m)) hw)
          (e.legal_moves b) Val.pinf Val.pinf alpha beta (le_refl _) (Or.inr rfl)
          (lt_of_lt_of_le hab (Val.le_pinf beta)) hab
        rw [Val.min_pinf] at H
        exact H

/-- C1: for every position, depth, turn and maximizing flag, the value
returned by alpha_beta with the initial window (-inf, +inf) is exactly the
value returned by minimax, despite the cutoff tests comparing beta (resp.
alpha) against the running best_value; the board contract pop(push b m) = b of
the rules engine is assumed. -/
theorem alphaBeta_minimax_value_agreement (e : Engine B M)
    (hpp : ∀ b m, e.pop (e.push b m) = b) (d : Nat) (t : Turn) (mx : Bool)
    (b : B) :
    (alpha_beta e d t mx Val.ninf Val.pinf b).1.1 = (minimax e d t mx b).1.1 := by
  rw [alpha_beta_val e hpp, minimax_val e hpp]
  obtain ⟨h1, h2, h3⟩ := aVal_failsoft e d t mx Val.ninf Val.pinf b
    (lt_of_lt_of_le (Val.ninf_lt_num 0) (Val.le_pinf _))
  rcases hr : aVal e d t mx Val.ninf Val.pinf b with _ | q | _
  · rw [hr] at h1
    have h := h1 (le_refl _)
    rw [Val.le_ninf_iff] at h
    exact h.symm
  · rw [hr] at h3
    exact h3 (Val.ninf_lt_num q) (Val.num_lt_pinf q)
  · rw [hr] at h2
    have h := h2 (le_refl _)
    rw [Val.pinf_le_iff] at h
    exact h.symm

/-- C1, witness: depth-3 search on the demo engine. -/
theorem alphaBeta_minimax_value_agreement_witness :
    (alpha_beta demoE 3 Turn.white true Val.ninf Val.pinf []).1.1 =
      (minimax demoE 3 Turn.white true []).1.1 :=
  alphaBeta_minimax_value_agreement demoE (fun _ _ => rfl) 3 Turn.white true []
